import Mathlib

/-!
# Verification of the versioned backup engine against its specification

Shallow embedding of the core of the `daemon-sauvegarde` backup engine
(`src/common/delta_sync.py`, `src/server/retention.py`, `src/server/gc.py`,
`src/server/restore.py`, `src/server/version_manager.py`,
`src/common/encryption.py`) together with proofs and refutations of the
spec-level claims.

Byte strings are modelled as `List Nat`, SQL tables as Lean lists of record
structures, the file system as an association list from path components to
byte strings, and environment inputs (the clock, `os.urandom`, the SHA-256
function, gzip, AES-GCM) as explicit parameters.
-/

namespace DeltaSync

/-- Byte strings (contents of files and of hash digests). -/
abbrev Bytes := List Nat

/-- `DeltaSync._rolling_hash`: `sum(data) % 2**32`. -/
def rollingHash (data : Bytes) : Nat :=
  data.sum % (2 ^ 32)

/-- Fuel-indexed worker for splitting a byte string into consecutive blocks
of `bs` bytes (the `f.read(block_size)` loop of `calculate_signature` /
`generate_delta`).  The fuel is the length of the list, which bounds the
number of reads since `bs` is positive in every call. -/
def chunksOfAux (bs : Nat) : Nat → Bytes → List Bytes
  | 0, _ => []
  | _ + 1, [] => []
  | fuel + 1, l => l.take bs :: chunksOfAux bs fuel (l.drop bs)

/-- The consecutive `bs`-byte blocks of `l`; the final block may be short.
For `bs = 0` Python's `f.read(0)` returns `b''` immediately and the read
loop terminates at once, yielding no blocks. -/
def chunksOf (bs : Nat) (l : Bytes) : List Bytes :=
  if bs = 0 then [] else chunksOfAux bs l.length l

/-- One entry of `signature['blocks']`: `{num, weak_hash, strong_hash, size}`. -/
structure SigBlock where
  num : Nat
  weak_hash : Nat
  strong_hash : Bytes
  size : Nat
  deriving Repr, DecidableEq

/-- A file signature as produced by `DeltaSync.calculate_signature`. -/
structure Signature where
  file_size : Nat
  block_size : Nat
  block_count : Nat
  blocks : List SigBlock
  file_hash : Bytes
  deriving Repr, DecidableEq

/-- The signature loop body: block records with a running `block_num`
counter.  `hash` is the SHA-256 block digest, passed as a parameter. -/
def sigBlocks (hash : Bytes → Bytes) : List Bytes → Nat → List SigBlock
  | [], _ => []
  | c :: cs, i =>
      ⟨i, rollingHash c, hash c, c.length⟩ :: sigBlocks hash cs (i + 1)

/-- `DeltaSync.calculate_signature`. -/
def calculate_signature (hash : Bytes → Bytes) (bs : Nat) (content : Bytes) :
    Signature :=
  let cs := chunksOf bs content
  { file_size := content.length
    block_size := bs
    block_count := cs.length
    blocks := sigBlocks hash cs 0
    file_hash := hash content }

/-- One delta operation: either a block reference or literal data, each
annotated with the output position (`{type,"block"|"data", ...}`). -/
inductive DeltaOp where
  | block (block_num : Nat) (position : Nat)
  | data (d : Bytes) (position : Nat)
  deriving Repr, DecidableEq

/-- The `old_blocks` dict of `generate_delta`: it is built by a
comprehension keyed on `(weak_hash, strong_hash)`, so for duplicate keys
the entry of the *last* block wins.  Looking a key up is therefore finding
the last signature block with those hashes. -/
def oldBlocksLookup (blocks : List SigBlock) (w : Nat) (s : Bytes) :
    Option Nat :=
  (blocks.reverse.find? fun b => b.weak_hash == w && b.strong_hash == s).map
    SigBlock.num

/-- Appending literal bytes to the trailing `data` op, creating one when
the op list (kept in reverse) does not end in a `data` op.  Mirrors the
`delta_ops[-1]['data'] += block_data` coalescing of `generate_delta`. -/
def pushData (acc : List DeltaOp) (d : Bytes) (pos : Nat) : List DeltaOp :=
  match acc with
  | DeltaOp.data d0 p0 :: rest => DeltaOp.data (d0 ++ d) p0 :: rest
  | _ => DeltaOp.data d pos :: acc

/-- The main loop of `generate_delta` over the blocks of the source file.
State: the (reversed) op list, the output position, `matched_blocks` and
`new_data_size`.  A full-size block is matched against `old_blocks`; a
short block (only the final one can be short) is the trailing literal. -/
def genAux (hash : Bytes → Bytes) (bs : Nat) (blocks : List SigBlock) :
    List Bytes → List DeltaOp → Nat → Nat → Nat →
    List DeltaOp × Nat × Nat
  | [], acc, _, matched, nds => (acc, matched, nds)
  | c :: cs, acc, pos, matched, nds =>
      if c.length = bs then
        match oldBlocksLookup blocks (rollingHash c) (hash c) with
        | some n =>
            genAux hash bs blocks cs (DeltaOp.block n pos :: acc) (pos + bs)
              (matched + 1) nds
        | none =>
            genAux hash bs blocks cs (pushData acc c pos) (pos + bs) matched
              (nds + c.length)
      else
        genAux hash bs blocks cs (pushData acc c pos) (pos + c.length) matched
          (nds + c.length)

/-- A delta script as produced by `DeltaSync.generate_delta` (the float
field `match_ratio` is a derived statistic and is not modelled). -/
structure Delta where
  operations : List DeltaOp
  matched_blocks : Nat
  new_data_size : Nat
  total_ops : Nat
  deriving Repr, DecidableEq

/-- `DeltaSync.generate_delta`: block-aligned scan of the source file
against the baseline signature. -/
def generate_delta (hash : Bytes → Bytes) (source : Bytes)
    (signature : Signature) : Delta :=
  let r := genAux hash signature.block_size signature.blocks
    (chunksOf signature.block_size source) [] 0 0 0
  { operations := r.1.reverse
    matched_blocks := r.2.1
    new_data_size := r.2.2
    total_ops := r.1.length }

/-- Applying the delta operations in order, writing into the output file:
`copy` reads the referenced baseline block, `literal` writes its bytes.
A reference to a missing block raises (`blocks[op['block_num']]` is a
`KeyError`), modelled by `none`. -/
def applyOps (baseChunks : List Bytes) : List DeltaOp → Option Bytes
  | [] => some []
  | DeltaOp.block n _ :: rest =>
      match baseChunks.get? n with
      | some c => (applyOps baseChunks rest).map (fun out => c ++ out)
      | none => none
  | DeltaOp.data d _ :: rest =>
      (applyOps baseChunks rest).map (fun out => d ++ out)

set_option linter.unusedVariables false in
/-- `DeltaSync.apply_delta`: recompute the baseline's signature with the
instance block size, read its blocks (block `num` is the bytes at offset
`num * block_size`, i.e. the `num`-th consecutive chunk), and apply the
operations in order. -/
def apply_delta (hash : Bytes → Bytes) (bs : Nat) (base : Bytes)
    (delta : Delta) : Option Bytes :=
  applyOps (chunksOf bs base) delta.operations

end DeltaSync

-- ===== DEFINITIONS (continued) =====


namespace Retention

/-- A parsed `datetime` (date and time of day; microseconds are zero for
timestamps parsed with `%Y%m%d_%H%M%S`). -/
structure DateTime where
  year : Nat
  month : Nat
  day : Nat
  hour : Nat
  minute : Nat
  second : Nat
  deriving Repr, DecidableEq

/-- Numeric value of a digit character. -/
def digitVal (c : Char) : Nat := c.toNat - '0'.toNat

/-- The digit character for `n % 10` (the `%0kd`-style formatting used by
`strftime`). -/
def digitChar (n : Nat) : Char := Char.ofNat ('0'.toNat + n % 10)

/-- `%04d`: exactly four digit characters (Python `datetime` years satisfy
`1 ≤ year ≤ 9999`, where this agrees with `strftime('%Y')`). -/
def pad4 (n : Nat) : List Char :=
  [digitChar (n / 1000), digitChar (n / 100), digitChar (n / 10), digitChar n]

/-- `%02d`. -/
def pad2 (n : Nat) : List Char := [digitChar (n / 10), digitChar n]

/-- `%06d` (for `%f`, the microsecond field). -/
def pad6 (n : Nat) : List Char :=
  [digitChar (n / 100000), digitChar (n / 10000), digitChar (n / 1000),
   digitChar (n / 100), digitChar (n / 10), digitChar n]

/-- `datetime.now().strftime("%Y-%m-%d_%H-%M-%S-%f")`: the timestamp
format emitted by `VersionManager.save_version` (line 296) and
`delete_file` (line 407). -/
def engineTimestamp (dt : DateTime) (micro : Nat) : String :=
  String.mk (pad4 dt.year ++ '-' :: pad2 dt.month ++ '-' :: pad2 dt.day
    ++ '_' :: pad2 dt.hour ++ '-' :: pad2 dt.minute ++ '-' :: pad2 dt.second
    ++ '-' :: pad6 micro)

/-- `%Y` in `_strptime`: the regex `(?P<Y>\d\d\d\d)`, exactly four
digits. -/
def parseY : List Char → Option (Nat × List Char)
  | c1 :: c2 :: c3 :: c4 :: rest =>
      if c1.isDigit && c2.isDigit && c3.isDigit && c4.isDigit then
        some (1000 * digitVal c1 + 100 * digitVal c2 + 10 * digitVal c3
          + digitVal c4, rest)
      else none
  | _ => none

/-- `%m`: the regex `1[0-2]|0[1-9]|[1-9]`, alternatives tried in order. -/
def parseMonth : List Char → Option (Nat × List Char)
  | c1 :: c2 :: rest =>
      if c1 = '1' && ('0' ≤ c2 && c2 ≤ '2') then some (10 + digitVal c2, rest)
      else if c1 = '0' && ('1' ≤ c2 && c2 ≤ '9') then some (digitVal c2, rest)
      else if '1' ≤ c1 && c1 ≤ '9' then some (digitVal c1, c2 :: rest)
      else none
  | [c1] =>
      if '1' ≤ c1 && c1 ≤ '9' then some (digitVal c1, []) else none
  | [] => none

/-- `%d`: the regex `3[01]|[12]\d|0[1-9]|[1-9]`. -/
def parseDay : List Char → Option (Nat × List Char)
  | c1 :: c2 :: rest =>
      if c1 = '3' && ('0' ≤ c2 && c2 ≤ '1') then some (30 + digitVal c2, rest)
      else if ('1' ≤ c1 && c1 ≤ '2') && c2.isDigit then
        some (10 * digitVal c1 + digitVal c2, rest)
      else if c1 = '0' && ('1' ≤ c2 && c2 ≤ '9') then some (digitVal c2, rest)
      else if '1' ≤ c1 && c1 ≤ '9' then some (digitVal c1, c2 :: rest)
      else none
  | [c1] =>
      if '1' ≤ c1 && c1 ≤ '9' then some (digitVal c1, []) else none
  | [] => none

/-- `%H`: the regex `2[0-3]|[0-1]\d|\d`. -/
def parseHour : List Char → Option (Nat × List Char)
  | c1 :: c2 :: rest =>
      if c1 = '2' && ('0' ≤ c2 && c2 ≤ '3') then some (20 + digitVal c2, rest)
      else if ('0' ≤ c1 && c1 ≤ '1') && c2.isDigit then
        some (10 * digitVal c1 + digitVal c2, rest)
      else if c1.isDigit then some (digitVal c1, c2 :: rest)
      else none
  | [c1] => if c1.isDigit then some (digitVal c1, []) else none
  | [] => none

/-- `%M` and `%S`: the regex `[0-5]\d|\d`. -/
def parseMinSec : List Char → Option (Nat × List Char)
  | c1 :: c2 :: rest =>
      if ('0' ≤ c1 && c1 ≤ '5') && c2.isDigit then
        some (10 * digitVal c1 + digitVal c2, rest)
      else if c1.isDigit then some (digitVal c1, c2 :: rest)
      else none
  | [c1] => if c1.isDigit then some (digitVal c1, []) else none
  | [] => none

/-- Gregorian leap year. -/
def isLeap (y : Nat) : Bool :=
  y % 4 = 0 && (y % 100 != 0 || y % 400 = 0)

/-- Days in a month (the validation `datetime()` applies to the parsed
day-of-month). -/
def daysInMonth (y m : Nat) : Nat :=
  if m = 2 then (if isLeap y then 29 else 28)
  else if m = 4 || m = 6 || m = 9 || m = 11 then 30
  else 31

/-- `datetime.strptime(ts_str, '%Y%m%d_%H%M%S')`: match `%Y%m%d`, a
literal underscore, `%H%M%S`, require the whole string to be consumed
(otherwise "unconverted data remains"), then validate the field ranges as
the `datetime` constructor does (`MINYEAR = 1`, day within month). -/
def strptime_compact (s : String) : Option DateTime := do
  let (y, r1) ← parseY s.data
  let (m, r2) ← parseMonth r1
  let (d, r3) ← parseDay r2
  match r3 with
  | '_' :: r4 => do
      let (h, r5) ← parseHour r4
      let (mi, r6) ← parseMinSec r5
      let (sec, r7) ← parseMinSec r6
      if r7 = [] && 1 ≤ y && d ≤ daysInMonth y m then
        some ⟨y, m, d, h, mi, sec⟩
      else none
  | _ => none

/-- Days since 1970-01-01 of a proleptic-Gregorian civil date
(Howard Hinnant's `days_from_civil`, the arithmetic behind `datetime`
subtraction and `timetuple`). -/
def days_from_civil (y m d : Int) : Int :=
  let y' := if m ≤ 2 then y - 1 else y
  let era := (if 0 ≤ y' then y' else y' - 399) / 400
  let yoe := y' - era * 400
  let doy := (153 * ((m + 9) % 12) + 2) / 5 + d - 1
  let doe := yoe * 365 + yoe / 4 - yoe / 100 + doy
  era * 146097 + doe - 719468

/-- A `datetime` as microseconds since 1970-01-01 00:00:00 (the timeline
on which `datetime` subtraction and `timedelta` comparison are exact). -/
def epochMicros (dt : DateTime) : Int :=
  (((days_from_civil dt.year dt.month dt.day * 24 + dt.hour) * 60
    + dt.minute) * 60 + dt.second) * 1000000

/-- One day as a `timedelta`, in microseconds. -/
def dayMicros : Int := 86400000000

/-- `strftime('%w')`-style weekday, Sunday = 0 (1970-01-01 was a
Thursday, weekday 4). -/
def weekdaySun (dt : DateTime) : Int :=
  (days_from_civil dt.year dt.month dt.day + 4) % 7

/-- `tm_yday`: 1-based day of the year. -/
def yday (dt : DateTime) : Int :=
  days_from_civil dt.year dt.month dt.day - days_from_civil dt.year 1 1 + 1

/-- `strftime('%U')`: week of the year, Sunday as first day, days before
the first Sunday in week 0. -/
def weekU (dt : DateTime) : Int :=
  (yday dt + 7 - weekdaySun dt) / 7

/-- `dt.strftime('%Y-%m-%d')`. -/
def dayKey (dt : DateTime) : String :=
  String.mk (pad4 dt.year ++ '-' :: pad2 dt.month ++ '-' :: pad2 dt.day)

/-- `dt.strftime('%Y-%U')`. -/
def weekKey (dt : DateTime) : String :=
  String.mk (pad4 dt.year ++ '-' :: pad2 (weekU dt).toNat)

/-- `dt.strftime('%Y-%m')`. -/
def monthKey (dt : DateTime) : String :=
  String.mk (pad4 dt.year ++ '-' :: pad2 dt.month)

/-- The mutable state of the `_calculate_pruning` loop: the `keep` set and
the three `{key: timestamp}` buckets. -/
structure PruneState where
  keep : List String
  daily_bucket : List (String × String)
  weekly_bucket : List (String × String)
  monthly_bucket : List (String × String)
  deriving Repr, DecidableEq

/-- One iteration of the `for ts_str in timestamp_strings` loop of
`RetentionManager._calculate_pruning`.  A `ValueError` from `strptime`
is swallowed (`except ValueError: pass`), leaving the state unchanged. -/
def pruneStep (now : Int) (st : PruneState) (ts : String) : PruneState :=
  match strptime_compact ts with
  | none => st
  | some dt =>
      let age := now - epochMicros dt
      if age < 1 * dayMicros then
        { st with keep := st.keep ++ [ts] }
      else if age < 7 * dayMicros then
        let k := dayKey dt
        if (st.daily_bucket.find? (fun e => e.1 == k)).isSome then st
        else { st with daily_bucket := st.daily_bucket ++ [(k, ts)],
                       keep := st.keep ++ [ts] }
      else if age < 28 * dayMicros then
        let k := weekKey dt
        if (st.weekly_bucket.find? (fun e => e.1 == k)).isSome then st
        else { st with weekly_bucket := st.weekly_bucket ++ [(k, ts)],
                       keep := st.keep ++ [ts] }
      else if age < 365 * dayMicros then
        let k := monthKey dt
        if (st.monthly_bucket.find? (fun e => e.1 == k)).isSome then st
        else { st with monthly_bucket := st.monthly_bucket ++ [(k, ts)],
                       keep := st.keep ++ [ts] }
      else st

/-- `RetentionManager._calculate_pruning`: returns the timestamps to
delete, i.e. every input timestamp not added to `keep`.  `now` is
`datetime.now()` as microseconds since the epoch, an environment input. -/
def calculate_pruning (now : Int) (timestamp_strings : List String) :
    List String :=
  let st := timestamp_strings.foldl (pruneStep now) ⟨[], [], [], []⟩
  timestamp_strings.filter (fun ts => !st.keep.contains ts)

end Retention


namespace Encryption

/-- The cryptographic primitives of `EncryptionManager`, abstracted: byte
strings (keys, salts, nonces, passwords, plaintexts, ciphertexts) live in
`α`; `enc`/`dec` are `AESGCM(key).encrypt/decrypt(nonce, data, None)`
(decryption returns `none` on an authentication failure), and `kdf` is
`PBKDF2HMAC(SHA256, 32, salt, 100000).derive(password)`. -/
structure Crypto (α : Type) where
  enc : α → α → α → α
  dec : α → α → α → Option α
  kdf : α → α → α

/-- The on-disk key file record
`{version, algorithm, mode, salt, nonce, key}` (the constant `algorithm`
field is omitted). -/
structure KeyFile (α : Type) where
  version : String
  mode : String
  salt : Option α
  nonce : Option α
  key : α

/-- The distinct failure conditions of `_load_key_file` (in the source all
are re-raised as `Exception("Key load failed: ...")` with distinct
messages). -/
inductive KeyError where
  | passwordRequired
  | corruptNoSalt
  | badPassword
  | corruptKeyFile
  deriving Repr, DecidableEq

/-- `EncryptionManager._save_key_file`: wrap the master key under
`KDF(password, salt)` with a fresh `nonce` when a password and salt are
present (mode `wrapped`), otherwise store the master key raw. -/
def _save_key_file {α : Type} (C : Crypto α) (master_key : α)
    (salt : Option α) (password : Option α) (nonce : α) : KeyFile α :=
  match password, salt with
  | some p, some s =>
      { version := "3.0", mode := "wrapped", salt := some s,
        nonce := some nonce, key := C.enc (C.kdf p s) nonce master_key }
  | _, _ =>
      { version := "3.0", mode := "raw", salt := salt, nonce := none,
        key := master_key }

/-- `EncryptionManager._load_key_file`: v1/v2 key files store the master
key directly and are migrated (re-saved, using fresh randomness
`freshSalt`/`freshNonce` when needed); a v3 `wrapped` file requires the
password, unwraps with `KDF(password, salt)`, and an authentication
failure is the incorrect-password condition; a `raw` file yields the
stored key.  Returns the master key and the (possibly rewritten) key
file. -/
def _load_key_file {α : Type} (C : Crypto α) (kf : KeyFile α)
    (password : Option α) (freshSalt freshNonce : α) :
    Except KeyError (α × KeyFile α) :=
  if kf.version = "2.0" ∨ kf.version = "1.0" then
    let mk := kf.key
    let s := match kf.salt with
      | some s => s
      | none => freshSalt
    Except.ok (mk, _save_key_file C mk (some s) password freshNonce)
  else
    match kf.mode with
    | "wrapped" =>
        match password with
        | none => Except.error KeyError.passwordRequired
        | some p =>
            match kf.salt with
            | none => Except.error KeyError.corruptNoSalt
            | some s =>
                match kf.nonce with
                | none => Except.error KeyError.corruptKeyFile
                | some n =>
                    match C.dec (C.kdf p s) n kf.key with
                    | some mk => Except.ok (mk, kf)
                    | none => Except.error KeyError.badPassword
    | _ => Except.ok (kf.key, kf)

/-- The in-memory state of an `EncryptionManager`: the unwrapped master
key, the current salt and the on-disk key file. -/
structure EMState (α : Type) where
  master_key : α
  salt : Option α
  key_file : KeyFile α

/-- `EncryptionManager.change_password` (the second definition, line 269,
which overrides the first): verify the old password by loading the current
key file in a throwaway instance, then re-wrap the in-memory master key
with a fresh salt (`newSalt`) and nonce (`newNonce`) under the new
password.  `verifySalt`/`verifyNonce` are the randomness the verification
instance would use for a v2 migration. -/
def change_password {α : Type} (C : Crypto α) (st : EMState α)
    (old_password new_password newSalt newNonce verifySalt verifyNonce : α) :
    Except KeyError (EMState α) :=
  match _load_key_file C st.key_file (some old_password) verifySalt
      verifyNonce with
  | Except.error e => Except.error e
  | Except.ok _ =>
      Except.ok
        { master_key := st.master_key
          salt := some newSalt
          key_file := _save_key_file C st.master_key (some newSalt)
            (some new_password) newNonce }

/-- An encrypted object on disk: `nonce ‖ ciphertext_and_tag` (the source
concatenates the 12-byte nonce with the ciphertext; the split at byte 12
is modelled by keeping the two fields). -/
structure EncBlob (α : Type) where
  nonce : α
  ct : α

/-- `EncryptionManager.encrypt_stream` (and the byte-level content of
`encrypt_file`): a fresh random nonce plus `AESGCM(key).encrypt`. -/
def encrypt_stream {α : Type} (C : Crypto α) (key nonce data : α) :
    EncBlob α :=
  ⟨nonce, C.enc key nonce data⟩

/-- `EncryptionManager.decrypt_stream` / `decrypt_file`: split off the
nonce and decrypt. -/
def decrypt_stream {α : Type} (C : Crypto α) (key : α) (blob : EncBlob α) :
    Option α :=
  C.dec key blob.nonce blob.ct

/-- A sequence of `change_password` calls; each tuple carries the old and
new passwords followed by the four randomness inputs of that rotation. -/
def applyRotations {α : Type} (C : Crypto α) :
    EMState α → List (α × α × α × α × α × α) → Except KeyError (EMState α)
  | st, [] => Except.ok st
  | st, (oldp, newp, s, n, vs, vn) :: rs =>
      match change_password C st oldp newp s n vs vn with
      | Except.error e => Except.error e
      | Except.ok st' => applyRotations C st' rs

end Encryption


/-- A concrete ideal cipher over `ℕ` for witnessing the C6 hypotheses:
encryption pairs up key, nonce and message; decryption checks the key and
nonce components and recovers the message; the KDF pairs password and
salt (injective in the password). -/
def natPairCrypto : Encryption.Crypto Nat where
  enc := fun k n m => Nat.pair k (Nat.pair n m)
  dec := fun k n c =>
    if c.unpair.1 = k ∧ c.unpair.2.unpair.1 = n then
      some c.unpair.2.unpair.2
    else none
  kdf := fun p s => Nat.pair p s


namespace VM

/-- Byte strings. -/
abbrev Bytes := List Nat

/-- A file-system path as a list of components.  The backup root is
assumed to be an already-normalized absolute path (the source resolves
candidate paths but compares them against the unresolved
`self.backup_root`; a root containing symlinks or `..` is an environment
condition outside this model). -/
abbrev Path := List String

/-- `str.strip('/')`: drop leading and trailing slashes. -/
def stripSlashes (s : String) : String :=
  String.mk (((s.data.dropWhile (· = '/')).reverse.dropWhile
    (· = '/')).reverse)

/-- `str.strip()`: drop leading and trailing whitespace. -/
def trimWs (s : String) : String :=
  String.mk (((s.data.dropWhile Char.isWhitespace).reverse.dropWhile
    Char.isWhitespace).reverse)

/-- `str(relative_path).strip().strip('/')` — the cleanup at the top of
`VersionManager._validate_path`. -/
def cleanRel (s : String) : String := stripSlashes (trimWs s)

/-- Worker for splitting a string at `'/'` separators. -/
def splitSlashAux : List Char → List Char → List String
  | [], acc => [String.mk acc.reverse]
  | c :: rest, acc =>
      if c = '/' then String.mk acc.reverse :: splitSlashAux rest []
      else splitSlashAux rest (c :: acc)

/-- Split a POSIX path string at `'/'`. -/
def splitSlash (s : String) : List String := splitSlashAux s.data []

/-- The path components `pathlib` keeps when joining a string onto a
directory: empty segments (consecutive slashes) and `.` are dropped,
`..` is kept. -/
def pathSegs (s : String) : Path :=
  (splitSlash s).filter (fun c => c ≠ "" ∧ c ≠ ".")

/-- One component step of `Path.resolve()` (lexical part): `.` and empty
components vanish, `..` pops (staying put at the file-system root), and a
name is pushed. -/
def resolveStep (stack : Path) (comp : String) : Path :=
  if comp = "" ∨ comp = "." then stack
  else if comp = ".." then stack.dropLast
  else stack ++ [comp]

/-- `(self.backup_root / clean_rel).resolve()`: fold the relative
components onto the (absolute, already-normalized) root. -/
def resolveFrom (root : Path) (comps : List String) : Path :=
  comps.foldl resolveStep root

/-- `VersionManager._validate_path`: clean the path, resolve it under the
root, and require `full_path.relative_to(backup_root)` to succeed (the
root must be a prefix of the resolved path); otherwise a `ValueError`
("Tentative de Path Traversal") is raised. -/
def _validate_path (root : Path) (rel : String) : Except Unit String :=
  let clean := cleanRel rel
  if root.isPrefixOf (resolveFrom root (pathSegs clean)) then
    Except.ok clean
  else
    Except.error ()

/-- The `encryption_metadata` dict returned by
`EncryptionManager.encrypt_file` (the constant `algorithm` field is
omitted). -/
structure EncMeta where
  nonce : Bytes
  original_size : Nat
  encrypted_size : Nat
  plaintext_hash : String
  deriving Repr, DecidableEq

/-- A row of the `file_versions` table. -/
structure VRow where
  file_path : String
  version_timestamp : String
  version_path : String
  file_size : Nat
  compressed_size : Option Nat
  file_hash : String
  dedup_ref : Option String
  is_compressed : Bool
  is_deduplicated : Bool
  is_encrypted : Bool
  encryption_metadata : Option EncMeta
  action : String
  deriving Repr, DecidableEq

/-- A row of the `dedup_store` table. -/
structure DRow where
  file_hash : String
  dedup_path : String
  original_size : Nat
  compressed_size : Nat
  is_encrypted : Bool
  encryption_metadata : Option EncMeta
  ref_count : Int
  deriving Repr, DecidableEq

/-- The on-disk state of one backup root: the files under the root
(keyed by root-relative component paths; aliasing between distinct
component lists through unresolved `..` segments is not modelled) and the
two catalog tables. -/
structure VMState where
  fs : List (Path × Bytes)
  file_versions : List VRow
  dedup_store : List DRow
  deriving Repr, DecidableEq

/-- Look a path up in the file system. -/
def fsGet (fs : List (Path × Bytes)) (p : Path) : Option Bytes :=
  (fs.find? (fun e => e.1 == p)).map (·.2)

/-- Create or overwrite a file. -/
def fsSet (fs : List (Path × Bytes)) (p : Path) (b : Bytes) :
    List (Path × Bytes) :=
  if (fs.find? (fun e => e.1 == p)).isSome then
    fs.map (fun e => if e.1 == p then (p, b) else e)
  else fs ++ [(p, b)]

/-- `unlink`. -/
def fsDel (fs : List (Path × Bytes)) (p : Path) : List (Path × Bytes) :=
  fs.filter (fun e => !(e.1 == p))

/-- The constructor flags of `VersionManager` plus the backup root. -/
structure Cfg where
  root : Path
  enable_compression : Bool
  enable_deduplication : Bool
  enable_encryption : Bool

/-- Environment inputs of a single pipeline call: the SHA-256 hex digest
function, gzip compression and decompression, whether the gzip step
raises (the `compress_file` fallback trigger), the byte-level AES-GCM
file transform (`nonce ‖ ciphertext`) and its inverse (which fails on bad
data), and the fresh random nonce. -/
structure Env where
  hash : Bytes → String
  gz : Bytes → Bytes
  gzFail : Bool
  gunzip : Bytes → Option Bytes
  encB : Bytes → Bytes
  decB : Bytes → Option Bytes
  nonce : Bytes

/-- Append a suffix (`.gz` / `.enc`) to the file name of a path. -/
def addSuffix : Path → String → Path
  | [], suf => [suf]
  | [x], suf => [x ++ suf]
  | x :: xs, suf => x :: addSuffix xs suf

/-- `VersionManager.compress_file`: write `dest + '.gz'` with gzip level
6 and return that path; on a gzip failure, fall back to `copy2` to `dest`
(no suffix) and return `dest`.  Returns the path written and its
content. -/
def compress_file (env : Env) (src : Bytes) (dest : Path) : Path × Bytes :=
  if env.gzFail then (dest, src)
  else (addSuffix dest ".gz", env.gz src)

/-- `String.intercalate` of path components (how relative paths are
stored in the catalog). -/
def joinPath (p : Path) : String := String.intercalate "/" p

/-- The metadata dict `EncryptionManager.encrypt_file` computes for the
bytes it encrypts. -/
def mkEncMeta (env : Env) (plaintext : Bytes) : EncMeta :=
  { nonce := env.nonce
    original_size := plaintext.length
    encrypted_size := (env.encB plaintext).length
    plaintext_hash := env.hash plaintext }

/-- The content-addressed blob location
`dedup_store/<h[0:2]>/<h[2:4]>/<h>` (before pipeline suffixes). -/
def dedupBase (file_hash : String) : Path :=
  ["dedup_store", file_hash.take 2, (file_hash.drop 2).take 2, file_hash]

/-- `VersionManager.get_or_create_dedup_file`: on a hash hit increment
`ref_count` and reuse the stored blob path and metadata; on a miss run
compress → encrypt, store the blob at
`dedup_store/<h[0:2]>/<h[2:4]>/<h>[.gz][.enc]`, and insert a dedup record
with `ref_count = 1`.  Returns `(dedup_path, existed, metadata)` and the
new state. -/
def get_or_create_dedup_file (env : Env) (cfg : Cfg) (σ : VMState)
    (src : Bytes) (file_hash : String) (file_size : Nat) :
    (String × Bool × Option EncMeta) × VMState :=
  match σ.dedup_store.find? (fun r => r.file_hash == file_hash) with
  | some r =>
      ((r.dedup_path, true, r.encryption_metadata),
       { σ with dedup_store := σ.dedup_store.map (fun q =>
          if q.file_hash == file_hash then
            { q with ref_count := q.ref_count + 1 }
          else q) })
  | none =>
      let base : Path := dedupBase file_hash
      let step1 : Path × Bytes × Nat :=
        if cfg.enable_compression then
          let pb := compress_file env src base
          (pb.1, pb.2, pb.2.length)
        else (base, src, file_size)
      let step2 : Path × Bytes × Option EncMeta × Bool × Nat :=
        if cfg.enable_encryption then
          let ct := env.encB step1.2.1
          (addSuffix step1.1 ".enc", ct, some (mkEncMeta env step1.2.1),
            true, ct.length)
        else (step1.1, step1.2.1, none, false, step1.2.2)
      let rel := joinPath step2.1
      ((rel, false, step2.2.2.1),
       { σ with
          fs := fsSet σ.fs step2.1 step2.2.1
          dedup_store := σ.dedup_store ++ [⟨file_hash, rel, file_size,
            step2.2.2.2.2, step2.2.2.2.1, step2.2.2.1, 1⟩] })

/-- The archiving part of `VersionManager.save_version` (everything after
the no-change fast path): store the blob through the dedup or the
`versions/<timestamp>/` pipeline, insert the `file_versions` row, then
overwrite the `current/` shadow with the new plaintext. -/
def save_version_archive (env : Env) (cfg : Cfg) (σ : VMState)
    (src : Bytes) (clean : String) (new_hash : String) (is_new : Bool)
    (ts : String) : Bool × VMState :=
  let branch : String × Option String × Option EncMeta × Bool × VMState :=
    if cfg.enable_deduplication then
      let r := get_or_create_dedup_file env cfg σ src new_hash src.length
      (r.1.1, some r.1.1, r.1.2.2, cfg.enable_encryption, r.2)
    else
      let vfile : Path := "versions" :: ts :: pathSegs clean
      let step1 : Path × Bytes :=
        if cfg.enable_compression then compress_file env src vfile
        else (vfile, src)
      let step2 : Path × Bytes × Option EncMeta × Bool :=
        if cfg.enable_encryption then
          (addSuffix step1.1 ".enc", env.encB step1.2,
            some (mkEncMeta env step1.2), true)
        else (step1.1, step1.2, none, cfg.enable_encryption)
      (joinPath step2.1, none, step2.2.2.1, step2.2.2.2,
        { σ with fs := fsSet σ.fs step2.1 step2.2.1 })
  let σ1 := branch.2.2.2.2
  let row : VRow :=
    { file_path := clean
      version_timestamp := ts
      version_path := branch.1
      file_size := src.length
      compressed_size := none
      file_hash := new_hash
      dedup_ref := branch.2.1
      is_compressed := cfg.enable_compression
      is_deduplicated := cfg.enable_deduplication
      is_encrypted := branch.2.2.2.1
      encryption_metadata := branch.2.2.1
      action := if is_new then "created" else "modified" }
  let σ2 := { σ1 with file_versions := σ1.file_versions ++ [row] }
  (true, { σ2 with fs := fsSet σ2.fs ("current" :: pathSegs clean) src })

/-- `VersionManager.save_version`: validate the path (any exception,
including the traversal `ValueError`, is caught and yields `False` —
before validation nothing has been read or written), detect the no-change
fast path against the `current/` shadow, then archive.  `now`/`micro` are
the `datetime.now()` of the call, formatted as the engine timestamp. -/
def save_version (env : Env) (cfg : Cfg) (σ : VMState) (src : Bytes)
    (relative_path : String) (now : Retention.DateTime) (micro : Nat) :
    Bool × VMState :=
  match _validate_path cfg.root relative_path with
  | Except.error _ => (false, σ)
  | Except.ok clean =>
      let new_hash := env.hash src
      match fsGet σ.fs ("current" :: pathSegs clean) with
      | some cur =>
          if env.hash cur = new_hash then (true, σ)
          else save_version_archive env cfg σ src clean new_hash false
            (Retention.engineTimestamp now micro)
      | none =>
          save_version_archive env cfg σ src clean new_hash true
            (Retention.engineTimestamp now micro)

/-- `VersionManager.delete_file`: validate, and if the `current/` shadow
exists, archive a final pre-deletion version with `action = 'deleted'`
(a plain `copy2` of the shadow into `versions/<timestamp>/<path>`;
`record_version` is called without compression or encryption arguments,
so those flags default to false), then remove the shadow.  A delete of a
non-existent path returns `True` unchanged. -/
def delete_file (env : Env) (cfg : Cfg) (σ : VMState)
    (relative_path : String) (now : Retention.DateTime) (micro : Nat) :
    Bool × VMState :=
  match _validate_path cfg.root relative_path with
  | Except.error _ => (false, σ)
  | Except.ok clean =>
      let currentKey : Path := "current" :: pathSegs clean
      match fsGet σ.fs currentKey with
      | none => (true, σ)
      | some bytes =>
          let ts := Retention.engineTimestamp now micro
          let vfile : Path := "versions" :: ts :: pathSegs clean
          let row : VRow :=
            { file_path := clean
              version_timestamp := ts
              version_path := joinPath vfile
              file_size := bytes.length
              compressed_size := none
              file_hash := env.hash bytes
              dedup_ref := none
              is_compressed := false
              is_deduplicated := false
              is_encrypted := false
              encryption_metadata := none
              action := "deleted" }
          (true,
            { fs := fsDel (fsSet σ.fs vfile bytes) currentKey
              file_versions := σ.file_versions ++ [row]
              dedup_store := σ.dedup_store })

end VM


namespace VM

/-- `RestoreManager.restore_version`: fetch the version row by
`(file_path, version_timestamp)`; when it is a dedup reference, fetch the
blob details from `dedup_store` **by `file_hash = dedup_ref`** (keeping
the row's values when that lookup misses); then decrypt (if flagged and a
manager exists) and decompress (if the row flags compression).  Returns
success and the bytes materialized at the destination (`none` when the
restore failed before the final write; a decompression failure can leave
a partial destination, which is not modelled).  No hash verification of
any kind is performed. -/
def restore_version (env : Env) (cfg : Cfg) (σ : VMState)
    (file_path timestamp : String) : Bool × Option Bytes :=
  match σ.file_versions.find? (fun r =>
      r.file_path == file_path && r.version_timestamp == timestamp) with
  | none => (false, none)
  | some row =>
      let info : String × Bool × Option EncMeta :=
        match row.is_deduplicated, row.dedup_ref with
        | true, some ref =>
            (match σ.dedup_store.find? (fun d => d.file_hash == ref) with
             | some d => (d.dedup_path, d.is_encrypted, d.encryption_metadata)
             | none =>
                (row.version_path, row.is_encrypted, row.encryption_metadata))
        | _, _ => (row.version_path, row.is_encrypted, row.encryption_metadata)
      match fsGet σ.fs (pathSegs info.1) with
      | none => (false, none)
      | some blob =>
          let step1 : Option Bytes :=
            if info.2.1 then
              if cfg.enable_encryption then env.decB blob else none
            else some blob
          match step1 with
          | none => (false, none)
          | some b1 =>
              if row.is_compressed then
                match env.gunzip b1 with
                | some b2 => (true, some b2)
                | none => (false, none)
              else (true, some b1)

/-- One iteration of the candidate loop of `gc.cleanup_dedup`, threading
`(state, removed count, reclaimed bytes)`: recount the references with
`SELECT COUNT(*) FROM file_versions WHERE dedup_ref = <file_hash>`;
repair the counter when positive, else unlink the blob and delete the
record. -/
def gcStep (acc : VMState × Nat × Nat) (cand : DRow) : VMState × Nat × Nat :=
  let σc := acc.1
  let actual_refs := (σc.file_versions.filter (fun v =>
    v.dedup_ref == some cand.file_hash)).length
  if actual_refs > 0 then
    ({ σc with dedup_store := σc.dedup_store.map (fun q =>
        if q.file_hash == cand.file_hash then
          { q with ref_count := (actual_refs : Int) }
        else q) },
      acc.2)
  else
    let p := pathSegs cand.dedup_path
    let rec' : List (Path × Bytes) × Nat :=
      match fsGet σc.fs p with
      | some b => (fsDel σc.fs p, acc.2.2 + b.length)
      | none => (σc.fs, acc.2.2)
    ({ σc with
        fs := rec'.1
        dedup_store := σc.dedup_store.filter (fun q =>
          !(q.file_hash == cand.file_hash)) },
      acc.2.1 + 1, rec'.2)

/-- `gc.cleanup_dedup`: walk the records with `ref_count ≤ 0` (fetched up
front) and apply `gcStep` to each.  Returns the final state, the number
of removed blocks and the reclaimed bytes. -/
def cleanup_dedup (σ : VMState) : VMState × Nat × Nat :=
  let candidates := σ.dedup_store.filter (fun r => r.ref_count ≤ 0)
  candidates.foldl gcStep (σ, 0, 0)

/-- `ORDER BY version_timestamp DESC LIMIT 1` over the rows of one path. -/
def latestRow (rows : List VRow) : Option VRow :=
  rows.foldl (fun acc r =>
    match acc with
    | none => some r
    | some a =>
        if a.version_timestamp < r.version_timestamp then some r
        else some a) none

/-- `VersionManager.get_file_signature`: find the newest version of the
path in the catalog (`None` when the path has no version — an escaping
path never matches a stored, validated path, so nothing is read); follow
a dedup reference (by `file_hash = dedup_ref`); decrypt when flagged
**and** a manager exists (otherwise the raw bytes flow on); gunzip with a
copy fallback on failure; and compute the `DeltaSync` signature with the
default 4096-byte blocks using block hash `bhash`.  Any internal
exception yields `None`. -/
def get_file_signature (env : Env) (cfg : Cfg) (σ : VMState)
    (bhash : DeltaSync.Bytes → DeltaSync.Bytes) (relative_path : String) :
    Option DeltaSync.Signature :=
  match latestRow (σ.file_versions.filter
      (fun r => r.file_path == relative_path)) with
  | none => none
  | some row =>
      let info : String × Bool × Option EncMeta :=
        match row.is_deduplicated, row.dedup_ref with
        | true, some ref =>
            (match σ.dedup_store.find? (fun d => d.file_hash == ref) with
             | some d => (d.dedup_path, d.is_encrypted, d.encryption_metadata)
             | none =>
                (row.version_path, row.is_encrypted, row.encryption_metadata))
        | _, _ => (row.version_path, row.is_encrypted, row.encryption_metadata)
      match fsGet σ.fs (pathSegs info.1) with
      | none => none
      | some blob =>
          let step1 : Option Bytes :=
            if info.2.1 && cfg.enable_encryption then env.decB blob
            else some blob
          match step1 with
          | none => none
          | some b1 =>
              let plain := match env.gunzip b1 with
                | some b2 => b2
                | none => b1
              some (DeltaSync.calculate_signature bhash 4096 plain)

end VM


namespace VM

/-- A concrete environment for witnesses and counterexamples: an injective
"digest" built from the byte sum, invertible stand-ins for gzip and
AES-GCM. -/
def wEnv : Env where
  hash := fun b => "h" ++ toString b.sum
  gz := fun b => 0 :: b
  gzFail := false
  gunzip := fun b => some b.tail
  encB := fun b => 9 :: b
  decB := fun b => some b.tail
  nonce := [1]

/-- `wEnv` with the gzip step failing (the `compress_file` fallback). -/
def wEnvGzFail : Env where
  hash := fun b => "h" ++ toString b.sum
  gz := fun b => 0 :: b
  gzFail := true
  gunzip := fun b => some b.tail
  encB := fun b => 9 :: b
  decB := fun b => some b.tail
  nonce := [1]

/-- Default configuration: compression, dedup and encryption all on. -/
def wCfg : Cfg := ⟨["r"], true, true, true⟩

/-- Compression on, dedup and encryption off (the non-dedup pipeline). -/
def wCfgPlain : Cfg := ⟨["r"], true, false, false⟩

/-- A fixed call time. -/
def wNow : Retention.DateTime := ⟨2025, 10, 12, 10, 30, 0⟩

/-- The empty backup root. -/
def emptyState : VMState := ⟨[], [], []⟩

/-- A root whose `current/` shadow holds one plaintext file `a.txt`. -/
def c7State : VMState := ⟨[(["current", "a.txt"], [7, 7])], [], []⟩

/-- A catalog whose single version records `file_hash = "deadbeef"` while
the blob on disk holds `[1, 2, 3]` (whose digest differs) — a corrupted
store. -/
def corruptState : VMState :=
  ⟨[(["blob"], [1, 2, 3])],
   [⟨"a", "T", "blob", 3, none, "deadbeef", none, false, false, false,
     none, "created"⟩], []⟩

/-- The state after one deduplicated save of `[5, 6]` as `docs/a.txt`,
with the dedup record's `ref_count` drifted to `0` while the
`file_versions` row still references the blob (the premise of the GC
drift-tolerance claim). -/
def gcDriftState : VMState :=
  let σ1 := (save_version wEnv wCfg emptyState [5, 6] "docs/a.txt" wNow 1).2
  { σ1 with dedup_store := σ1.dedup_store.map (fun q =>
      { q with ref_count := 0 }) }

end VM

-- ===== THEOREMS =====

namespace DeltaSync.Proofs

theorem chunksOfAux_join (bs : Nat) (hbs : 0 < bs) :
    ∀ (fuel : Nat) (l : Bytes), l.length ≤ fuel →
      (chunksOfAux bs fuel l).flatten = l := by
  intro fuel
  induction fuel with
  | zero =>
      intro l hl
      have : l = [] := List.eq_nil_of_length_eq_zero (Nat.le_zero.mp hl)
      subst this
      simp [chunksOfAux]
  | succ n ih =>
      intro l hl
      cases l with
      | nil => simp [chunksOfAux]
      | cons a t =>
          have hd : ((a :: t).drop bs).length ≤ n := by
            simp only [List.length_drop, List.length_cons] at *
            omega
          simp only [chunksOfAux, List.flatten_cons, ih _ hd]
          exact List.take_append_drop bs (a :: t)

theorem chunksOf_join (bs : Nat) (hbs : 0 < bs) (l : Bytes) :
    (chunksOf bs l).flatten = l := by
  unfold chunksOf
  rw [if_neg (Nat.pos_iff_ne_zero.mp hbs)]
  exact chunksOfAux_join bs hbs l.length l le_rfl

theorem sigBlocks_mem (hash : Bytes → Bytes) :
    ∀ (cs : List Bytes) (i : Nat) (b : SigBlock), b ∈ sigBlocks hash cs i →
      ∃ j c, cs.get? j = some c ∧ b.num = i + j ∧ b.strong_hash = hash c := by
  intro cs
  induction cs with
  | nil => intro i b hb; simp [sigBlocks] at hb
  | cons c cs ih =>
      intro i b hb
      rw [sigBlocks] at hb
      rcases List.mem_cons.mp hb with h | h
      · exact ⟨0, c, rfl, by simp [h], by simp [h]⟩
      · obtain ⟨j, c', hg, hn, hs⟩ := ih (i + 1) b h
        exact ⟨j + 1, c', by simpa using hg, by omega, hs⟩

theorem oldBlocksLookup_spec (blocks : List SigBlock) (w : Nat) (s : Bytes)
    (n : Nat) (h : oldBlocksLookup blocks w s = some n) :
    ∃ b, b ∈ blocks ∧ b.num = n ∧ b.weak_hash = w ∧ b.strong_hash = s := by
  unfold oldBlocksLookup at h
  cases hf : blocks.reverse.find?
      (fun b => b.weak_hash == w && b.strong_hash == s) with
  | none => rw [hf] at h; simp at h
  | some b =>
      rw [hf] at h
      simp only [Option.map_some', Option.some.injEq] at h
      have hp := List.find?_some hf
      have hm := List.mem_of_find?_eq_some hf
      simp only [Bool.and_eq_true, beq_iff_eq] at hp
      exact ⟨b, List.mem_reverse.mp hm, h, hp.1, hp.2⟩

theorem lookup_chunk (hash : Bytes → Bytes) (hinj : Function.Injective hash)
    (bs : Nat) (B c : Bytes) (n : Nat)
    (h : oldBlocksLookup (calculate_signature hash bs B).blocks
      (rollingHash c) (hash c) = some n) :
    (chunksOf bs B).get? n = some c := by
  obtain ⟨b, hb, hnum, _, hs⟩ := oldBlocksLookup_spec _ _ _ _ h
  have hb' : b ∈ sigBlocks hash (chunksOf bs B) 0 := by
    simpa [calculate_signature] using hb
  obtain ⟨j, c', hg, hn0, hsh⟩ := sigBlocks_mem hash (chunksOf bs B) 0 b hb'
  have hcc : c' = c := hinj (by rw [← hsh, hs])
  have hnj : n = j := by omega
  rw [hnj, hg, hcc]

theorem applyOps_append (bc : List Bytes) (l1 l2 : List DeltaOp) :
    applyOps bc (l1 ++ l2)
      = (applyOps bc l1).bind
          (fun a => (applyOps bc l2).map (fun b => a ++ b)) := by
  induction l1 with
  | nil =>
      simp only [List.nil_append, applyOps]
      cases applyOps bc l2 <;> simp
  | cons op l1 ih =>
      cases op with
      | block n p =>
          simp only [List.cons_append, applyOps, List.append_eq]
          cases bc.get? n with
          | none => simp
          | some cb =>
              rw [ih]
              cases applyOps bc l1 <;> cases applyOps bc l2 <;>
                simp [List.append_assoc]
      | data d p =>
          simp only [List.cons_append, applyOps, List.append_eq]
          rw [ih]
          cases applyOps bc l1 <;> cases applyOps bc l2 <;>
            simp [List.append_assoc]

theorem applyOps_pushData (bc : List Bytes) (acc : List DeltaOp) (d : Bytes)
    (pos : Nat) :
    applyOps bc (pushData acc d pos).reverse
      = (applyOps bc acc.reverse).map (fun a => a ++ d) := by
  cases acc with
  | nil => simp [pushData, applyOps]
  | cons op rest =>
      cases op with
      | data d0 p0 =>
          rw [show pushData (DeltaOp.data d0 p0 :: rest) d pos
              = DeltaOp.data (d0 ++ d) p0 :: rest from rfl]
          rw [List.reverse_cons, List.reverse_cons, applyOps_append,
            applyOps_append]
          cases applyOps bc rest.reverse <;> simp [applyOps, List.append_assoc]
      | block n p =>
          rw [show pushData (DeltaOp.block n p :: rest) d pos
              = DeltaOp.data d pos :: DeltaOp.block n p :: rest from rfl]
          rw [List.reverse_cons, applyOps_append]
          cases applyOps bc (DeltaOp.block n p :: rest).reverse <;>
            simp [applyOps]

theorem genAux_apply (hash : Bytes → Bytes) (bs : Nat)
    (blocks : List SigBlock) (bc : List Bytes)
    (H : ∀ c n, oldBlocksLookup blocks (rollingHash c) (hash c) = some n →
      bc.get? n = some c) :
    ∀ (cs : List Bytes) (acc : List DeltaOp) (pos matched nds : Nat),
      applyOps bc ((genAux hash bs blocks cs acc pos matched nds).1).reverse
        = (applyOps bc acc.reverse).map (fun a => a ++ cs.flatten) := by
  intro cs
  induction cs with
  | nil =>
      intro acc pos m nds
      simp only [genAux, List.flatten_nil]
      cases applyOps bc acc.reverse <;> simp
  | cons c cs ih =>
      intro acc pos m nds
      by_cases hc : c.length = bs
      · rw [genAux, if_pos hc]
        cases hlk : oldBlocksLookup blocks (rollingHash c) (hash c) with
        | some n =>
            rw [ih]
            have hget := H c n hlk
            simp only [List.reverse_cons, applyOps_append, applyOps, hget]
            cases applyOps bc acc.reverse <;> simp [List.append_assoc]
        | none =>
            rw [ih, applyOps_pushData]
            cases applyOps bc acc.reverse <;> simp [List.append_assoc]
      · rw [genAux, if_neg hc, ih, applyOps_pushData]
        cases applyOps bc acc.reverse <;> simp [List.append_assoc]

end DeltaSync.Proofs

/-- C1: for every baseline `B` and target `T`, applying the delta generated
from `T` against `calculate_signature B` onto `B` reproduces `T`
byte-for-byte, assuming SHA-256 is collision-free on the blocks involved
(modelled as injectivity of the block-hash function) and a positive block
size (the engine default is 4096). -/
theorem C1_delta_roundtrip (hash : DeltaSync.Bytes → DeltaSync.Bytes)
    (hinj : Function.Injective hash) (bs : Nat) (hbs : 0 < bs)
    (B T : DeltaSync.Bytes) :
    DeltaSync.apply_delta hash bs B
      (DeltaSync.generate_delta hash T
        (DeltaSync.calculate_signature hash bs B)) = some T := by
  unfold DeltaSync.apply_delta DeltaSync.generate_delta
  have hbsz : (DeltaSync.calculate_signature hash bs B).block_size = bs := rfl
  rw [hbsz]
  rw [DeltaSync.Proofs.genAux_apply hash bs
    (DeltaSync.calculate_signature hash bs B).blocks (DeltaSync.chunksOf bs B)
    (fun c n h => DeltaSync.Proofs.lookup_chunk hash hinj bs B c n h)]
  simp [DeltaSync.applyOps, DeltaSync.Proofs.chunksOf_join bs hbs T]

/-- Witness for C1 at a concrete injective block hash (`id`), block size 2,
baseline `[1,2,3,4,5]` and target `[9,9,3,4,5,6,7]`. -/
theorem C1_delta_roundtrip_witness :
    DeltaSync.apply_delta id 2 [1, 2, 3, 4, 5]
      (DeltaSync.generate_delta id [9, 9, 3, 4, 5, 6, 7]
        (DeltaSync.calculate_signature id 2 [1, 2, 3, 4, 5]))
      = some [9, 9, 3, 4, 5, 6, 7] :=
  C1_delta_roundtrip id (fun _ _ h => h) 2 (by decide) [1, 2, 3, 4, 5]
    [9, 9, 3, 4, 5, 6, 7]

namespace Retention.Proofs

theorem digitChar_isDigit (x : Nat) : (digitChar x).isDigit = true := by
  unfold digitChar
  have h : x % 10 < 10 := Nat.mod_lt _ (by norm_num)
  generalize hx : x % 10 = k at h ⊢
  interval_cases k <;> decide

theorem parseMonth_dash (cs : List Char) : parseMonth ('-' :: cs) = none := by
  cases cs with
  | nil => decide
  | cons c2 rest => simp [parseMonth]

theorem strptime_compact_engine (dt : DateTime) (micro : Nat) :
    strptime_compact (engineTimestamp dt micro) = none := by
  unfold strptime_compact engineTimestamp pad4 pad2
  simp [parseY, digitChar_isDigit, parseMonth_dash]

theorem pruneStep_engine (now : Int) (st : PruneState) (dt : DateTime)
    (micro : Nat) :
    pruneStep now st (engineTimestamp dt micro) = st := by
  simp [pruneStep, strptime_compact_engine]

end Retention.Proofs

/-- C2 (refuted by the code): `RetentionManager._calculate_pruning` parses
timestamps with `strptime(ts, '%Y%m%d_%H%M%S')`, but the engine's
timestamps (emitted by `save_version` via
`strftime("%Y-%m-%d_%H-%M-%S-%f")`) contain a dash right after the
four-digit year, so parsing always raises `ValueError`, the timestamp is
never added to the keep-set, and **every** version of the path — however
recent — is returned for deletion.  This theorem evaluates the code on any
list of engine-formatted timestamps: all of them are pruned. -/
theorem C2_retention_deletes_all_engine_timestamps (now : Int)
    (vs : List (Retention.DateTime × Nat)) :
    Retention.calculate_pruning now
        (vs.map fun p => Retention.engineTimestamp p.1 p.2)
      = vs.map fun p => Retention.engineTimestamp p.1 p.2 := by
  unfold Retention.calculate_pruning
  have hfold : ∀ (st : Retention.PruneState),
      (vs.map fun p => Retention.engineTimestamp p.1 p.2).foldl
        (Retention.pruneStep now) st = st := by
    induction vs with
    | nil => intro st; rfl
    | cons v vs ih =>
        intro st
        simp only [List.map_cons, List.foldl_cons,
          Retention.Proofs.pruneStep_engine]
        exact ih st
  rw [hfold]
  simp [List.filter_eq_self]

namespace Encryption.Proofs

theorem change_password_master {α : Type} (C : Crypto α) (st : EMState α)
    (op np s n vs vn : α) (st' : EMState α)
    (h : change_password C st op np s n vs vn = Except.ok st') :
    st'.master_key = st.master_key := by
  unfold change_password at h
  split at h
  · exact absurd h (by simp)
  · cases h; rfl

theorem applyRotations_master {α : Type} (C : Crypto α) :
    ∀ (rs : List (α × α × α × α × α × α)) (st st' : EMState α),
      applyRotations C st rs = Except.ok st' →
      st'.master_key = st.master_key := by
  intro rs
  induction rs with
  | nil => intro st st' h; simp [applyRotations] at h; rw [h]
  | cons r rs ih =>
      intro st st' h
      obtain ⟨oldp, newp, s, n, vs, vn⟩ := r
      unfold applyRotations at h
      cases hc : change_password C st oldp newp s n vs vn with
      | error e => rw [hc] at h; exact absurd h (by simp)
      | ok st1 =>
          rw [hc] at h
          rw [ih st1 st' h, change_password_master C st oldp newp s n vs vn
            st1 hc]

end Encryption.Proofs

/-- C6: with the AES-GCM primitives idealized (decryption undoes
encryption under the same key and nonce; decryption under any other key
fails authentication) and the KDF password-injective for a fixed salt,
rotating the password from `p1` to `p2`:
(a) succeeds and only re-wraps — the state keeps the same master key and
the key file holds the same master key wrapped under `p2` with the fresh
salt and nonce;
(b) the master key is preserved by any sequence of successful rotations;
(c) every blob ever encrypted under the master key still decrypts;
(d) unlocking the rotated key file with `p2` yields the master key;
(e) unlocking it with `p1` fails with the bad-password condition. -/
theorem C6_password_rotation {α : Type} (C : Encryption.Crypto α)
    (hcorrect : ∀ k n m, C.dec k n (C.enc k n m) = some m)
    (hauth : ∀ k k' n n' m, k ≠ k' → C.dec k' n' (C.enc k n m) = none)
    (hkdf : ∀ p p' s, p ≠ p' → C.kdf p s ≠ C.kdf p' s)
    (mk s0 n0 p1 p2 s' n' vs vn : α) (hp : p1 ≠ p2)
    (st : Encryption.EMState α)
    (hst : st = ⟨mk, some s0,
      Encryption._save_key_file C mk (some s0) (some p1) n0⟩) :
    Encryption.change_password C st p1 p2 s' n' vs vn
        = Except.ok ⟨mk, some s',
            Encryption._save_key_file C mk (some s') (some p2) n'⟩
    ∧ (∀ rs st', Encryption.applyRotations C st rs = Except.ok st' →
        st'.master_key = mk)
    ∧ (∀ nn d, Encryption.decrypt_stream C mk
        (Encryption.encrypt_stream C mk nn d) = some d)
    ∧ (∀ fs fn, Encryption._load_key_file C
        (Encryption._save_key_file C mk (some s') (some p2) n') (some p2)
        fs fn
        = Except.ok (mk,
            Encryption._save_key_file C mk (some s') (some p2) n'))
    ∧ (∀ fs fn, Encryption._load_key_file C
        (Encryption._save_key_file C mk (some s') (some p2) n') (some p1)
        fs fn
        = Except.error Encryption.KeyError.badPassword) := by
  subst hst
  refine ⟨?_, ?_, ?_, ?_, ?_⟩
  · unfold Encryption.change_password Encryption._load_key_file
      Encryption._save_key_file
    simp [hcorrect]
  · intro rs st' h
    exact Encryption.Proofs.applyRotations_master C rs _ st' h
  · intro nn d
    simp [Encryption.decrypt_stream, Encryption.encrypt_stream, hcorrect]
  · intro fs fn
    unfold Encryption._load_key_file Encryption._save_key_file
    simp [hcorrect]
  · intro fs fn
    unfold Encryption._load_key_file Encryption._save_key_file
    simp [hauth _ _ _ _ _ (hkdf p2 p1 s' (Ne.symm hp))]

/-- Witness for C6: the idealized cipher is instantiated with the
`Nat.pair` based `natPairCrypto`, the rotation runs from password `2` to
password `3` on master key `5`, and the rotated state is computed
explicitly. -/
theorem C6_password_rotation_witness :
    Encryption.change_password natPairCrypto
        ⟨5, some 1, Encryption._save_key_file natPairCrypto 5 (some 1)
          (some 2) 4⟩
        2 3 6 7 8 9
      = Except.ok ⟨5, some 6,
          Encryption._save_key_file natPairCrypto 5 (some 6) (some 3) 7⟩ := by
  have h := C6_password_rotation natPairCrypto
    (by intro k n m; simp [natPairCrypto, Nat.unpair_pair])
    (by
      intro k k' n n' m hk
      have hcond : ¬(k = k' ∧ n = n') := fun hh => hk hh.1
      simp [natPairCrypto, Nat.unpair_pair, hcond])
    (by
      intro p p' sa hp hps
      exact hp (by
        have := congrArg (fun x => x.unpair.1) hps
        simpa [natPairCrypto] using this))
    5 1 4 2 3 6 7 8 9 (by decide) _ rfl
  exact h.1

namespace VM.Proofs

theorem find?_fsSet (p : Path) (b : Bytes) :
    ∀ fs : List (Path × Bytes),
      (fsSet fs p b).find? (fun e => e.1 == p) = some (p, b) := by
  intro fs
  induction fs with
  | nil => simp [fsSet, List.find?]
  | cons e fs ih =>
      by_cases he : (e.1 == p) = true
      · have hs : ((e :: fs).find? (fun x => x.1 == p)).isSome := by
          simp [List.find?, he]
        simp only [fsSet, hs, if_pos, List.map_cons, he, if_true]
        simp [List.find?]
      · unfold fsSet at ih ⊢
        by_cases hc : ((fs.find? (fun x => x.1 == p)).isSome)
        · have hs : (((e :: fs).find? (fun x => x.1 == p)).isSome) := by
            simp [List.find?, he, hc]
          rw [if_pos hs]
          rw [if_pos hc] at ih
          simp only [List.map_cons, he, Bool.false_eq_true, not_false_iff,
            ite_false]
          simpa [List.find?, he] using ih
        · have hs : ¬(((e :: fs).find? (fun x => x.1 == p)).isSome) := by
            simp [List.find?, he]
            simpa using hc
          rw [if_neg hs]
          rw [if_neg hc] at ih
          simpa [List.find?, he] using ih

theorem fsGet_fsSet_self (fs : List (Path × Bytes)) (p : Path) (b : Bytes) :
    fsGet (fsSet fs p b) p = some b := by
  unfold fsGet
  rw [find?_fsSet]
  rfl

theorem find?_map_overwrite (p q : Path) (b : Bytes)
    (hpq : (p == q) = false) :
    ∀ fs : List (Path × Bytes),
      (fs.map (fun e => if e.1 == p then (p, b) else e)).find?
          (fun e => e.1 == q)
        = fs.find? (fun e => e.1 == q) := by
  intro fs
  induction fs with
  | nil => rfl
  | cons e fs ih =>
      by_cases hep : (e.1 == p) = true
      · have he : e.1 = p := by simpa using hep
        have heq : (e.1 == q) = false := by rw [he]; exact hpq
        simp only [List.map_cons, hep, if_true, List.find?, hpq, heq]
        exact ih
      · simp only [List.map_cons, hep, Bool.false_eq_true, not_false_iff,
          ite_false, List.find?]
        by_cases heq : (e.1 == q) = true
        · simp [heq]
        · simp only [heq]
          exact ih

theorem find?_append_single (p q : Path) (b : Bytes)
    (hpq : (p == q) = false) :
    ∀ fs : List (Path × Bytes),
      (fs ++ [(p, b)]).find? (fun e => e.1 == q)
        = fs.find? (fun e => e.1 == q) := by
  intro fs
  induction fs with
  | nil => simp [List.find?, hpq]
  | cons e fs ih =>
      by_cases heq : (e.1 == q) = true
      · simp [List.find?, heq]
      · simp only [List.cons_append, List.find?, heq]
        exact ih

theorem fsGet_fsSet_ne (fs : List (Path × Bytes)) (p q : Path) (b : Bytes)
    (h : p ≠ q) : fsGet (fsSet fs p b) q = fsGet fs q := by
  have hpq : (p == q) = false := by simpa using h
  unfold fsGet fsSet
  by_cases hc : ((fs.find? (fun e => e.1 == p)).isSome)
  · rw [if_pos hc, find?_map_overwrite p q b hpq]
  · rw [if_neg hc, find?_append_single p q b hpq]

theorem fsGet_fsDel_ne (fs : List (Path × Bytes)) (k q : Path)
    (h : k ≠ q) : fsGet (fsDel fs k) q = fsGet fs q := by
  have hkq : (k == q) = false := by simpa using h
  unfold fsGet fsDel
  congr 1
  induction fs with
  | nil => rfl
  | cons e fs ih =>
      by_cases hek : (e.1 == k) = true
      · have he : e.1 = k := by simpa using hek
        have heq : (e.1 == q) = false := by rw [he]; exact hkq
        simp only [List.filter_cons, hek, Bool.not_true, Bool.false_eq_true,
          not_false_iff, ite_false, List.find?, heq]
        exact ih
      · simp only [List.filter_cons, hek, Bool.not_false, if_true,
          List.find?]
        by_cases heq : (e.1 == q) = true
        · simp [heq]
        · simp only [heq]
          exact ih

end VM.Proofs

namespace VM.Proofs

theorem archive_fs_current (env : Env) (cfg : Cfg) (σ : VMState)
    (src : Bytes) (clean nh : String) (is_new : Bool) (ts : String) :
    fsGet (save_version_archive env cfg σ src clean nh is_new ts).2.fs
      ("current" :: pathSegs clean) = some src := by
  unfold save_version_archive
  exact fsGet_fsSet_self _ _ _

theorem archive_versions (env : Env) (cfg : Cfg) (σ : VMState)
    (src : Bytes) (clean nh : String) (is_new : Bool) (ts : String) :
    ∃ row,
      (save_version_archive env cfg σ src clean nh is_new ts).2.file_versions
        = σ.file_versions ++ [row] := by
  unfold save_version_archive get_or_create_dedup_file
  by_cases hd : cfg.enable_deduplication
  · rw [if_pos hd]
    cases hf : σ.dedup_store.find? (fun r => r.file_hash == nh) with
    | some r => exact ⟨_, rfl⟩
    | none => exact ⟨_, rfl⟩
  · rw [if_neg hd]
    exact ⟨_, rfl⟩

theorem archive_fst (env : Env) (cfg : Cfg) (σ : VMState)
    (src : Bytes) (clean nh : String) (is_new : Bool) (ts : String) :
    (save_version_archive env cfg σ src clean nh is_new ts).1 = true := rfl

end VM.Proofs

/-- C8: with a valid path, saving the same bytes twice in a row yields:
the first save succeeds; the second save succeeds and leaves the state
(catalog and disk) completely unchanged; if the `current/` shadow already
held identical bytes the first save was already a no-op; otherwise the
first save created exactly one new `file_versions` row. -/
theorem C8_no_change_fast_path (env : VM.Env) (cfg : VM.Cfg)
    (σ : VM.VMState) (src : VM.Bytes) (rel : String)
    (now1 : Retention.DateTime) (m1 : Nat) (now2 : Retention.DateTime)
    (m2 : Nat) (clean : String)
    (hv : VM._validate_path cfg.root rel = Except.ok clean) :
    (VM.save_version env cfg σ src rel now1 m1).1 = true
    ∧ VM.save_version env cfg (VM.save_version env cfg σ src rel now1 m1).2
        src rel now2 m2
      = (true, (VM.save_version env cfg σ src rel now1 m1).2)
    ∧ (∀ cur, VM.fsGet σ.fs ("current" :: VM.pathSegs clean) = some cur →
        env.hash cur = env.hash src →
        (VM.save_version env cfg σ src rel now1 m1).2 = σ)
    ∧ ((∀ cur, VM.fsGet σ.fs ("current" :: VM.pathSegs clean) = some cur →
        env.hash cur ≠ env.hash src) →
        ((VM.save_version env cfg σ src rel now1 m1).2).file_versions.length
          = σ.file_versions.length + 1) := by
  have hsecond : ∀ (σ1 : VM.VMState) (c : VM.Bytes),
      VM.fsGet σ1.fs ("current" :: VM.pathSegs clean) = some c →
      env.hash c = env.hash src →
      VM.save_version env cfg σ1 src rel now2 m2 = (true, σ1) := by
    intro σ1 c hg hhc
    unfold VM.save_version
    rw [hv]
    simp only [hg, hhc, if_pos]
  cases hcur : VM.fsGet σ.fs ("current" :: VM.pathSegs clean) with
  | some cur =>
      by_cases hh : env.hash cur = env.hash src
      · have h1 : VM.save_version env cfg σ src rel now1 m1 = (true, σ) := by
          unfold VM.save_version
          rw [hv]
          simp only [hcur, hh, if_pos]
        refine ⟨by rw [h1], ?_, ?_, ?_⟩
        · rw [h1]
          exact hsecond σ cur hcur hh
        · intro cur' _ _
          rw [h1]
        · intro hmis
          exact absurd hh (hmis cur rfl)
      · have h1 : VM.save_version env cfg σ src rel now1 m1
            = VM.save_version_archive env cfg σ src clean (env.hash src)
              false (Retention.engineTimestamp now1 m1) := by
          unfold VM.save_version
          rw [hv]
          simp only [hcur, hh, if_neg, if_false]
        refine ⟨by rw [h1, VM.Proofs.archive_fst], ?_, ?_, ?_⟩
        · rw [h1]
          exact hsecond _ src (VM.Proofs.archive_fs_current env cfg σ src
            clean (env.hash src) false (Retention.engineTimestamp now1 m1))
            rfl
        · intro cur' hcur' hh'
          cases hcur'
          exact absurd hh' hh
        · intro _
          rw [h1]
          obtain ⟨row, hrow⟩ := VM.Proofs.archive_versions env cfg σ src
            clean (env.hash src) false (Retention.engineTimestamp now1 m1)
          rw [hrow]
          simp
  | none =>
      have h1 : VM.save_version env cfg σ src rel now1 m1
          = VM.save_version_archive env cfg σ src clean (env.hash src)
            true (Retention.engineTimestamp now1 m1) := by
        unfold VM.save_version
        rw [hv]
        simp only [hcur]
      refine ⟨by rw [h1, VM.Proofs.archive_fst], ?_, ?_, ?_⟩
      · rw [h1]
        exact hsecond _ src (VM.Proofs.archive_fs_current env cfg σ src
          clean (env.hash src) true (Retention.engineTimestamp now1 m1))
          rfl
      · intro cur' hcur' _
        cases hcur'
      · intro _
        rw [h1]
        obtain ⟨row, hrow⟩ := VM.Proofs.archive_versions env cfg σ src
          clean (env.hash src) true (Retention.engineTimestamp now1 m1)
        rw [hrow]
        simp

/-- Witness for C8: two saves of `[5, 6]` as `docs/a.txt` into an empty
root; the second returns success and the unchanged state. -/
theorem C8_no_change_fast_path_witness :
    VM.save_version VM.wEnv VM.wCfg
        (VM.save_version VM.wEnv VM.wCfg VM.emptyState [5, 6] "docs/a.txt"
          VM.wNow 1).2 [5, 6] "docs/a.txt" VM.wNow 2
      = (true, (VM.save_version VM.wEnv VM.wCfg VM.emptyState [5, 6]
          "docs/a.txt" VM.wNow 1).2) :=
  (C8_no_change_fast_path VM.wEnv VM.wCfg VM.emptyState [5, 6] "docs/a.txt"
    VM.wNow 1 VM.wNow 2 "docs/a.txt" rfl).2.1

/-- C5: a relative path whose normalization escapes the backup root (the
resolved path does not lie under the root) is rejected by
`_validate_path` before anything is read or written: `save_version` and
`delete_file` return `False` with the backup root (file system and
catalog) unchanged, and `get_file_signature` — which never validates but
looks the raw path up in the catalog, where only validated cleaned paths
exist (hypothesis `hwf`) — finds nothing and returns `None` without
touching any file. -/
theorem C5_path_safety (env : VM.Env) (cfg : VM.Cfg) (σ : VM.VMState)
    (src : VM.Bytes) (rel : String) (now : Retention.DateTime) (micro : Nat)
    (bhash : DeltaSync.Bytes → DeltaSync.Bytes)
    (hesc : ¬ cfg.root <+: VM.resolveFrom cfg.root
      (VM.pathSegs (VM.cleanRel rel)))
    (hwf : ∀ row ∈ σ.file_versions,
      VM._validate_path cfg.root row.file_path = Except.ok row.file_path) :
    VM._validate_path cfg.root rel = Except.error ()
    ∧ VM.save_version env cfg σ src rel now micro = (false, σ)
    ∧ VM.delete_file env cfg σ rel now micro = (false, σ)
    ∧ VM.get_file_signature env cfg σ bhash rel = none := by
  have hval : VM._validate_path cfg.root rel = Except.error () := by
    unfold VM._validate_path
    rw [if_neg]
    intro hb
    exact hesc (List.isPrefixOf_iff_prefix.mp hb)
  refine ⟨hval, ?_, ?_, ?_⟩
  · unfold VM.save_version
    rw [hval]
  · unfold VM.delete_file
    rw [hval]
  · unfold VM.get_file_signature
    have hfil : σ.file_versions.filter (fun r => r.file_path == rel) = [] := by
      apply List.filter_eq_nil_iff.mpr
      intro row hrow hb
      have heq : row.file_path = rel := by simpa using hb
      have := hwf row hrow
      rw [heq, hval] at this
      exact Except.noConfusion this
    rw [hfil]
    rfl

/-- Witness for C5 at the escaping path `"../etc/passwd"` against an
empty backup root. -/
theorem C5_path_safety_witness :
    VM.get_file_signature VM.wEnv VM.wCfg VM.emptyState id "../etc/passwd"
      = none :=
  (C5_path_safety VM.wEnv VM.wCfg VM.emptyState [0] "../etc/passwd" VM.wNow
    1 id (by decide)
    (fun row hrow => absurd hrow (List.not_mem_nil row))).2.2.2

/-- C10: `save_version` and `delete_file` signal every failure through
their Boolean result instead of an exception (the embedding is a total
function into `Bool × state`); in particular a rejected path-traversal
attempt returns `False` with the state — catalog rows and the `current/`
shadow included — unchanged. -/
theorem C10_failure_as_false (env : VM.Env) (cfg : VM.Cfg) (σ : VM.VMState)
    (src : VM.Bytes) (rel : String) (now : Retention.DateTime)
    (micro : Nat)
    (hesc : ¬ cfg.root <+: VM.resolveFrom cfg.root
      (VM.pathSegs (VM.cleanRel rel))) :
    VM.save_version env cfg σ src rel now micro = (false, σ)
    ∧ VM.delete_file env cfg σ rel now micro = (false, σ) := by
  have hval : VM._validate_path cfg.root rel = Except.error () := by
    unfold VM._validate_path
    rw [if_neg]
    intro hb
    exact hesc (List.isPrefixOf_iff_prefix.mp hb)
  constructor
  · unfold VM.save_version
    rw [hval]
  · unfold VM.delete_file
    rw [hval]

/-- Witness for C10 at the escaping path `"../../secret"`. -/
theorem C10_failure_as_false_witness :
    VM.save_version VM.wEnv VM.wCfg VM.emptyState [1] "../../secret" VM.wNow
      1 = (false, VM.emptyState) :=
  (C10_failure_as_false VM.wEnv VM.wCfg VM.emptyState [1] "../../secret"
    VM.wNow 1 (by decide)).1

/-- C7 (refuted by the code): with encryption enabled, `delete_file`
archives the final pre-deletion version as a bare `copy2` of the
`current/` shadow — the blob under `versions/<ts>/` holds the plaintext
bytes `[7, 7]` and the catalog row records `is_encrypted = false` — so
not every archived version blob outside `current/` is encrypted at
rest. -/
theorem C7_counterexample :
    VM.wCfg.enable_encryption = true
    ∧ ((VM.delete_file VM.wEnv VM.wCfg VM.c7State "a.txt"
          VM.wNow 3).2.file_versions.map
        (fun r => (r.action, r.is_encrypted)))
      = [("deleted", false)]
    ∧ VM.fsGet
        (VM.delete_file VM.wEnv VM.wCfg VM.c7State "a.txt" VM.wNow 3).2.fs
        ["versions", "2025-10-12_10-30-00-000003", "a.txt"]
      = some [7, 7] := by
  refine ⟨rfl, rfl, rfl⟩

/-- C7 as amended: with encryption enabled, blobs written by the
`save_version` pipeline (dedup-store blobs on a dedup miss, and
`versions/<ts>/` blobs when dedup is off) are stored as the AES-GCM
transform of the pipeline bytes with the row flag `is_encrypted = true`;
but the final pre-deletion version archived by `delete_file` is a plain
copy of the `current/` shadow, recorded with `is_encrypted = false`. -/
theorem C7_amended (env : VM.Env) (cfg : VM.Cfg)
    (henc : cfg.enable_encryption = true) :
    (∀ (σ : VM.VMState) (rel : String) (now : Retention.DateTime)
      (micro : Nat) (clean : String) (bytes : VM.Bytes),
      VM._validate_path cfg.root rel = Except.ok clean →
      VM.fsGet σ.fs ("current" :: VM.pathSegs clean) = some bytes →
      VM.delete_file env cfg σ rel now micro
        = (true,
          ⟨VM.fsDel (VM.fsSet σ.fs ("versions"
              :: Retention.engineTimestamp now micro :: VM.pathSegs clean)
              bytes)
            ("current" :: VM.pathSegs clean),
          σ.file_versions ++ [⟨clean, Retention.engineTimestamp now micro,
            VM.joinPath ("versions" :: Retention.engineTimestamp now micro
              :: VM.pathSegs clean), bytes.length, none, env.hash bytes,
            none, false, false, false, none, "deleted"⟩],
          σ.dedup_store⟩))
    ∧ (∀ (σ : VM.VMState) (src : VM.Bytes) (rel : String)
      (now : Retention.DateTime) (micro : Nat) (clean : String),
      VM._validate_path cfg.root rel = Except.ok clean →
      VM.fsGet σ.fs ("current" :: VM.pathSegs clean) = none →
      cfg.enable_deduplication = true →
      σ.dedup_store.find? (fun r => r.file_hash == env.hash src) = none →
      ∃ row, (VM.save_version env cfg σ src rel now micro).2.file_versions
          = σ.file_versions ++ [row]
        ∧ row.is_encrypted = true
        ∧ VM.fsGet (VM.save_version env cfg σ src rel now micro).2.fs
            (VM.addSuffix
              (if cfg.enable_compression then
                (VM.compress_file env src (VM.dedupBase (env.hash src))).1
              else VM.dedupBase (env.hash src)) ".enc")
          = some (env.encB
              (if cfg.enable_compression then
                (VM.compress_file env src (VM.dedupBase (env.hash src))).2
              else src)))
    ∧ (∀ (σ : VM.VMState) (src : VM.Bytes) (rel : String)
      (now : Retention.DateTime) (micro : Nat) (clean : String),
      VM._validate_path cfg.root rel = Except.ok clean →
      VM.fsGet σ.fs ("current" :: VM.pathSegs clean) = none →
      cfg.enable_deduplication = false →
      ∃ row, (VM.save_version env cfg σ src rel now micro).2.file_versions
          = σ.file_versions ++ [row]
        ∧ row.is_encrypted = true
        ∧ VM.fsGet (VM.save_version env cfg σ src rel now micro).2.fs
            (VM.addSuffix
              (if cfg.enable_compression then
                (VM.compress_file env src ("versions"
                  :: Retention.engineTimestamp now micro
                  :: VM.pathSegs clean)).1
              else "versions" :: Retention.engineTimestamp now micro
                :: VM.pathSegs clean) ".enc")
          = some (env.encB
              (if cfg.enable_compression then
                (VM.compress_file env src ("versions"
                  :: Retention.engineTimestamp now micro
                  :: VM.pathSegs clean)).2
              else src))) := by
  refine ⟨?_, ?_, ?_⟩
  · intro σ rel now micro clean bytes hv hcur
    unfold VM.delete_file
    rw [hv]
    simp only [hcur]
  · intro σ src rel now micro clean hv hcur hd hmiss
    unfold VM.save_version
    rw [hv]
    simp only [hcur]
    unfold VM.save_version_archive VM.get_or_create_dedup_file
    rw [if_pos hd, hmiss]
    dsimp only
    by_cases hc : cfg.enable_compression
    · rw [if_pos hc, if_pos hc, if_pos hc, if_pos henc]
      refine ⟨_, rfl, ?_, ?_⟩
      · exact henc
      rw [VM.Proofs.fsGet_fsSet_ne, VM.Proofs.fsGet_fsSet_self]
      intro habs
      have : "current" = "dedup_store" := by
        have h2 := congrArg (fun l : VM.Path => l.head?) habs
        unfold VM.compress_file at h2
        by_cases hgz : env.gzFail
        · simp only [hgz, if_true, VM.dedupBase, VM.addSuffix,
            List.head?] at h2
          exact Option.some.inj h2
        · simp only [hgz, Bool.false_eq_true, not_false_iff, if_false,
            ite_false, VM.dedupBase, VM.addSuffix, List.head?] at h2
          exact Option.some.inj h2
      exact absurd this (by decide)
    · rw [if_neg hc, if_neg hc, if_neg hc, if_pos henc]
      refine ⟨_, rfl, ?_, ?_⟩
      · exact henc
      rw [VM.Proofs.fsGet_fsSet_ne, VM.Proofs.fsGet_fsSet_self]
      intro habs
      have : "current" = "dedup_store" := by
        simpa [VM.dedupBase, VM.addSuffix] using
          congrArg (fun l : VM.Path => l.head?) habs
      exact absurd this (by decide)
  · intro σ src rel now micro clean hv hcur hd
    unfold VM.save_version
    rw [hv]
    simp only [hcur]
    unfold VM.save_version_archive
    rw [if_neg (by rw [hd]; exact Bool.false_ne_true)]
    dsimp only
    by_cases hc : cfg.enable_compression
    · rw [if_pos hc, if_pos hc, if_pos hc, if_pos henc]
      refine ⟨_, rfl, ?_, ?_⟩
      · rfl
      rw [VM.Proofs.fsGet_fsSet_ne, VM.Proofs.fsGet_fsSet_self]
      intro habs
      have h2 := congrArg (fun l : VM.Path => l.head?) habs
      unfold VM.compress_file at h2
      generalize VM.pathSegs clean = ps at h2
      by_cases hgz : env.gzFail
      · rw [if_pos hgz] at h2
        cases ps <;> simp [VM.addSuffix] at h2
      · rw [if_neg hgz] at h2
        cases ps <;> simp [VM.addSuffix] at h2
    · rw [if_neg hc, if_neg hc, if_neg hc, if_pos henc]
      refine ⟨_, rfl, ?_, ?_⟩
      · rfl
      rw [VM.Proofs.fsGet_fsSet_ne, VM.Proofs.fsGet_fsSet_self]
      intro habs
      have : "current" = "versions" := by
        simpa [VM.addSuffix] using
          congrArg (fun l : VM.Path => l.head?) habs
      exact absurd this (by decide)

/-- Witness for the amended C7: deleting `a.txt` from a root whose shadow
holds `[7, 7]`, with encryption enabled, produces exactly the plaintext
archived copy and the unencrypted `deleted` row. -/
theorem C7_amended_witness :
    VM.delete_file VM.wEnv VM.wCfg VM.c7State "a.txt" VM.wNow 3
      = (true,
        ⟨VM.fsDel (VM.fsSet VM.c7State.fs ("versions"
            :: Retention.engineTimestamp VM.wNow 3 :: VM.pathSegs "a.txt")
            [7, 7])
          ("current" :: VM.pathSegs "a.txt"),
        VM.c7State.file_versions ++ [⟨"a.txt",
          Retention.engineTimestamp VM.wNow 3,
          VM.joinPath ("versions" :: Retention.engineTimestamp VM.wNow 3
            :: VM.pathSegs "a.txt"), 2, none, VM.wEnv.hash [7, 7],
          none, false, false, false, none, "deleted"⟩],
        VM.c7State.dedup_store⟩) :=
  (C7_amended VM.wEnv VM.wCfg rfl).1 VM.c7State "a.txt" VM.wNow 3 "a.txt"
    [7, 7] rfl rfl

/-- C9 (refuted by the code): with compression enabled and the gzip step
failing, the save falls back to an identity copy (the blob at
`versions/<ts>/a.txt`, without `.gz`, holds the source bytes verbatim)
but the catalog row still records `is_compressed = true` — not `false` as
claimed: `save_version` sets the flag from `enable_compression` without
consulting the `compress_file` outcome. -/
theorem C9_counterexample :
    VM.wEnvGzFail.gzFail = true
    ∧ VM.wCfgPlain.enable_compression = true
    ∧ ((VM.save_version VM.wEnvGzFail VM.wCfgPlain VM.emptyState [1, 2, 3]
          "a.txt" VM.wNow 1).2.file_versions.map (fun r => r.is_compressed))
      = [true]
    ∧ VM.fsGet (VM.save_version VM.wEnvGzFail VM.wCfgPlain VM.emptyState
          [1, 2, 3] "a.txt" VM.wNow 1).2.fs
        ["versions", "2025-10-12_10-30-00-000001", "a.txt"]
      = some [1, 2, 3] :=
  ⟨rfl, rfl, rfl, rfl⟩

/-- C9 as amended: when compression is enabled but gzip fails, the save
falls back to an identity copy of the source bytes (stored at the
destination without the `.gz` suffix), yet the resulting catalog record
carries `compressed = true` (the flag mirrors `enable_compression`, not
the fallback). -/
theorem C9_amended (env : VM.Env) (cfg : VM.Cfg) (σ : VM.VMState)
    (src : VM.Bytes) (rel : String) (now : Retention.DateTime) (micro : Nat)
    (clean : String)
    (hgz : env.gzFail = true) (hcomp : cfg.enable_compression = true)
    (hd : cfg.enable_deduplication = false)
    (henc : cfg.enable_encryption = false)
    (hv : VM._validate_path cfg.root rel = Except.ok clean)
    (hcur : VM.fsGet σ.fs ("current" :: VM.pathSegs clean) = none) :
    ∃ row,
      (VM.save_version env cfg σ src rel now micro).2.file_versions
        = σ.file_versions ++ [row]
      ∧ row.is_compressed = true
      ∧ VM.fsGet (VM.save_version env cfg σ src rel now micro).2.fs
          ("versions" :: Retention.engineTimestamp now micro
            :: VM.pathSegs clean)
        = some src := by
  unfold VM.save_version
  rw [hv]
  simp only [hcur]
  unfold VM.save_version_archive VM.compress_file
  rw [if_neg (by rw [hd]; exact Bool.false_ne_true)]
  dsimp only
  rw [if_pos hcomp, if_pos hgz,
    if_neg (by rw [henc]; exact Bool.false_ne_true)]
  refine ⟨_, rfl, hcomp, ?_⟩
  rw [VM.Proofs.fsGet_fsSet_ne, VM.Proofs.fsGet_fsSet_self]
  intro habs
  have h2 := congrArg (fun l : VM.Path => l.head?) habs
  simp at h2

/-- Witness for the amended C9: the fallback save of `[1, 2, 3]` as
`a.txt` with dedup and encryption off. -/
theorem C9_amended_witness :
    VM.fsGet (VM.save_version VM.wEnvGzFail VM.wCfgPlain VM.emptyState
        [1, 2, 3] "a.txt" VM.wNow 1).2.fs
      ("versions" :: Retention.engineTimestamp VM.wNow 1
        :: VM.pathSegs "a.txt")
      = some [1, 2, 3] :=
  Exists.elim (C9_amended VM.wEnvGzFail VM.wCfgPlain VM.emptyState
    [1, 2, 3] "a.txt" VM.wNow 1 "a.txt" rfl rfl rfl rfl rfl rfl)
    (fun _ h => h.2.2)

/-- C4 (refuted by the code): `restore_version` performs no hash
verification.  In a store whose catalog records `file_hash = "deadbeef"`
for a blob whose bytes digest to something else, the restore returns
success and materializes the mismatching bytes; no `CorruptionDetected`
failure occurs and the destination is kept. -/
theorem C4_counterexample :
    VM.restore_version VM.wEnv VM.wCfg VM.corruptState "a" "T"
      = (true, some [1, 2, 3])
    ∧ VM.wEnv.hash [1, 2, 3] ≠ "deadbeef" :=
  ⟨rfl, by decide⟩

set_option linter.unusedVariables false in
/-- C4 as amended: the restore pipeline fetches the row, follows the
(non-dedup, unencrypted, uncompressed) descriptor, copies the blob bytes
to the destination and returns `True` — even under the explicit
hypothesis that the destination digest differs from the recorded
`plaintext_hash`.  No verification step exists. -/
theorem C4_amended (env : VM.Env) (cfg : VM.Cfg) (σ : VM.VMState)
    (fp ts : String) (row : VM.VRow) (blob : VM.Bytes)
    (hfind : σ.file_versions.find? (fun r =>
      r.file_path == fp && r.version_timestamp == ts) = some row)
    (hded : row.is_deduplicated = false)
    (henc : row.is_encrypted = false)
    (hcomp : row.is_compressed = false)
    (hblob : VM.fsGet σ.fs (VM.pathSegs row.version_path) = some blob)
    (hmismatch : env.hash blob ≠ row.file_hash) :
    VM.restore_version env cfg σ fp ts = (true, some blob) := by
  unfold VM.restore_version
  rw [hfind]
  dsimp only
  rw [hded]
  dsimp only
  rw [hblob, henc]
  dsimp only
  rw [hcomp]
  rfl

/-- Witness for the amended C4 on the corrupted store fixture. -/
theorem C4_amended_witness :
    VM.restore_version VM.wEnv VM.wCfg VM.corruptState "a" "T"
      = (true, some [1, 2, 3]) :=
  C4_amended VM.wEnv VM.wCfg VM.corruptState "a" "T"
    ⟨"a", "T", "blob", 3, none, "deadbeef", none, false, false, false,
      none, "created"⟩
    [1, 2, 3] rfl rfl rfl rfl rfl (by decide)

/-- C3 (refuted by the code): `save_version` stores the dedup **path**
(`dedup_store/h1/1/h11.gz.enc`) in `file_versions.dedup_ref`, while the
GC recounts references with `WHERE dedup_ref = <file_hash>`; the count is
therefore always zero, so a record whose `ref_count` drifted to `0` is
never repaired: `cleanup_dedup` deletes the record and the blob even
though a version still references it, and the versions table keeps
pointing at the now-missing blob. -/
theorem C3_gc_unrepaired_deletion :
    VM.gcDriftState.file_versions.map (fun r => r.dedup_ref)
      = [some "dedup_store/h1/1/h11.gz.enc"]
    ∧ (VM.gcDriftState.dedup_store.map (fun r => (r.file_hash,
        r.dedup_path, r.ref_count)))
      = [("h11", "dedup_store/h1/1/h11.gz.enc", 0)]
    ∧ (VM.cleanup_dedup VM.gcDriftState).1.dedup_store = []
    ∧ VM.fsGet (VM.cleanup_dedup VM.gcDriftState).1.fs
        (VM.pathSegs "dedup_store/h1/1/h11.gz.enc") = none
    ∧ (VM.cleanup_dedup VM.gcDriftState).1.file_versions
      = VM.gcDriftState.file_versions :=
  ⟨rfl, rfl, rfl, rfl, rfl⟩
